import Mathlib

/-!
# Verification of the MapReduce word counter

A shallow embedding of `main.go` of the MapReduce-WordCounter repository.
The pipeline (worker pool tokenizing files into per-file partial counts,
reducer pool merging them into one final map) is modelled as follows:

* Go's `map[string]int` is modelled as an association list `WordCount`
  with unique-key updates (`bump`) and zero-default reads (`lookup`).
* `strings.FieldsFunc` (main.go:141) is modelled by `fieldsFunc`;
  `unicode.IsLetter` is modelled by `isLetterGo` (faithful on the ASCII
  range, which covers every input the specification mentions).
* A file as seen by a worker is a `FileOutcome`: either the `os.Open`
  call fails (main.go:127-131), or it yields a sequence of successful
  chunk reads, each at most `chunkSize` bytes (main.go:135-138), ending
  either in `io.EOF` or in a mid-read error (main.go:154-160).
* The sequential reference semantics of `processFiles` (main.go:84-111)
  merges the per-file partial counts in file order; the concurrency is
  treated separately: `PStep`/`Reaches` model the orchestrator's
  close/join protocol and the channel hand-off (main.go:101-108), and
  permutation-invariance of `mergeAll` shows the merge order chosen by
  the scheduler does not affect the result.
* The worker goroutine's panic/recover control flow (main.go:117-123)
  is modelled by `workerRun` over `WorkItem` lists.
-/

namespace MapReduceWC

/-- Models Go `unicode.IsLetter` restricted to the ASCII range
(`Char.isAlpha` agrees with `unicode.IsLetter` on ASCII, and every
example input in the specification is ASCII). -/
def isLetterGo (c : Char) : Bool := c.isAlpha

/-- The separator predicate passed to `strings.FieldsFunc` at
main.go:141-144: split at any non-letter rune. -/
def sepRune (r : Char) : Bool := !(isLetterGo r)

/-- Models Go `strings.FieldsFunc`: `cur` is the (reversed) letter run
currently being collected; a separator or the end of input emits it if
non-empty. `fieldsFunc` returns the maximal runs of characters on which
the predicate is false, in order, with empty runs dropped. -/
def fieldsFuncAux (p : Char → Bool) : List Char → List Char → List (List Char)
  | cur, [] => if cur.isEmpty then [] else [cur.reverse]
  | cur, c :: cs =>
    if p c then
      if cur.isEmpty then fieldsFuncAux p [] cs
      else cur.reverse :: fieldsFuncAux p [] cs
    else fieldsFuncAux p (c :: cur) cs

/-- Go `strings.FieldsFunc(s, p)` on a chunk, as a list of runs. -/
def fieldsFunc (p : Char → Bool) (s : List Char) : List (List Char) :=
  fieldsFuncAux p [] s

/-- The words of one chunk before lower-casing: main.go:141-144. -/
def chunkWords (chunk : List Char) : List (List Char) :=
  fieldsFunc sepRune chunk

/-- `strings.ToLower` applied to one word (main.go:148); faithful on
ASCII, the range of every example in the specification. -/
def lowerWord (w : List Char) : String :=
  String.mk (w.map Char.toLower)

/-- Association-list model of Go's `map[string]int`. -/
abbrev WordCount := List (String × Nat)

/-- Reading `m[w]` in Go: the stored value, defaulting to zero. -/
def lookup : WordCount → String → Nat
  | [], _ => 0
  | (k, v) :: rest, w => if k = w then v else lookup rest w

/-- `m[w] += n` in Go: add to the existing entry or insert a new one. -/
def bump : WordCount → String → Nat → WordCount
  | [], w, n => [(w, n)]
  | (k, v) :: rest, w, n =>
    if k = w then (k, v + n) :: rest else (k, v) :: bump rest w n

/-- The keys of a count map. -/
def keys (m : WordCount) : List String := m.map Prod.fst

/-- The total weight an association list assigns to a key, summed over
all entries (equal to `lookup` whenever keys are unique, which holds
for every map the program builds; stated this way it is exact for any
list and makes the merge lemmas unconditional). -/
def keyTotal (m : WordCount) (w : String) : Nat :=
  (m.map (fun p => if p.1 = w then p.2 else 0)).sum

/-- The per-word counting loop at main.go:146-152: lower-case each word
and increment its entry when it is non-empty. -/
def countWords (res : WordCount) (ws : List (List Char)) : WordCount :=
  ws.foldl (fun acc w =>
    let word := lowerWord w
    if word ≠ "" then bump acc word 1 else acc) res

/-- Processing one successful chunk read (main.go:139-153): split the
chunk at non-letters and count the resulting words. -/
def countChunk (res : WordCount) (chunk : List Char) : WordCount :=
  countWords res (chunkWords chunk)

/-- The lower-cased, non-empty tokens arising from a list of runs. -/
def tokensOfWords (ws : List (List Char)) : List String :=
  (ws.map lowerWord).filter (fun w => w ≠ "")

/-- The token stream of one chunk: its letter runs, lower-cased. -/
def tokensOfChunk (chunk : List Char) : List String :=
  tokensOfWords (chunkWords chunk)

/-- The read buffer size at main.go:135: `1024*1024` (1 MiB); every
chunk handed to the splitting logic holds at most this many bytes. -/
def chunkSize : Nat := 1024 * 1024

/-- What the worker observes for one file identifier: either the
`os.Open` at main.go:127 fails, or the file yields a sequence of
successful chunk reads and the read loop ends with `io.EOF`
(`midReadErr = false`) or with a non-EOF read error at main.go:157-160
(`midReadErr = true`). -/
inductive FileOutcome where
  | openFail
  | opened (reads : List (List Char)) (midReadErr : Bool)
deriving DecidableEq, Repr

/-- One pass of the worker loop body (main.go:125-168) over a single
file: on open failure, `continue` — no result is emitted; otherwise the
chunks actually read are counted into a fresh map and the map is sent
on the result channel whether or not a mid-read error ended the loop
(the `result <- res` at main.go:167 runs in both cases). -/
def processOneFile : FileOutcome → Option WordCount
  | .openFail => none
  | .opened reads _ => some (reads.foldl countChunk [])

/-- The reducer body at main.go:189-195: fold every entry of one
partial result into the final map with `finResult[k] += v`. -/
def mergeInto (finResult : WordCount) (res : WordCount) : WordCount :=
  res.foldl (fun acc p => bump acc p.1 p.2) finResult

/-- Merging a sequence of partial results into the (initially empty)
final map, in the order they reach the reducers. -/
def mergeAll (parts : List WordCount) : WordCount :=
  parts.foldl mergeInto []

/-- The pair returned by `processFiles` at main.go:110:
`return finalResult, nil`. -/
structure RunResult where
  finalResult : WordCount
  error : Option String
deriving DecidableEq, Repr

set_option linter.unusedVariables false in
/-- Sequential reference semantics of `processFiles` (main.go:84-111):
every file that opens contributes its partial count, the partial counts
are merged into the final map, and the returned error is always `none`
(the function body has no validation and ends in
`return finalResult, nil`). The worker-pool size does not influence the
value (permutation-invariance of `mergeAll` is proved separately). -/
def processFiles (files : List FileOutcome) (maxWorkers : Nat) : RunResult :=
  { finalResult := mergeAll (files.filterMap processOneFile)
    error := none }

/-- Whether a file identifier opens successfully (main.go:127-131). -/
def opensOK : FileOutcome → Bool
  | .openFail => false
  | .opened _ _ => true

/-- The token stream a file contributes (empty when it fails to open). -/
def fileTokens : FileOutcome → List String
  | .openFail => []
  | .opened reads _ => (reads.map tokensOfChunk).flatten

/-- Occurrences of word `w` in the token stream of a file. -/
def occCount (w : String) (f : FileOutcome) : Nat :=
  (fileTokens f).count w

/-- The guard in `main` at main.go:61-64: with no file arguments, main
logs an error and returns without ever calling `processFiles`. -/
def mainRuns (args : List String) : Bool := !args.isEmpty

/-- A work-queue item as the worker sees it: a file to process
normally, or one whose processing raises a runtime panic. -/
inductive WorkItem where
  | good (f : FileOutcome)
  | faulting
deriving DecidableEq, Repr

/-- The worker goroutine of main.go:115-171: the `recover` sits in a
`defer` at the *goroutine* boundary (main.go:119-123), outside the
`for fn := range workQueue` loop, so a panic while processing one item
unwinds past the loop, is caught and logged, and the goroutine then
returns (its `wg.Done()` still runs). The function returns the partial
counts the worker emits and whether a panic was recovered. -/
def workerRun : List WorkItem → List WordCount × Bool
  | [] => ([], false)
  | .faulting :: _ => ([], true)
  | .good f :: rest =>
    let r := workerRun rest
    match processOneFile f with
    | some res => (res :: r.1, r.2)
    | none => r

/-- Global state of the result-channel hand-off between workers,
orchestrator and reducers (main.go:86, 101-108). `activeWorkers` counts
worker goroutines that have not yet returned; `pending` are partial
counts sent but not yet received; `sent`/`received` record history. -/
structure PipelineState where
  activeWorkers : Nat
  pending : List WordCount
  received : List WordCount
  sent : List WordCount
  rqClosed : Bool
deriving DecidableEq, Repr

/-- The state right after `processFiles` starts its pools. -/
def initState (workers : Nat) : PipelineState :=
  { activeWorkers := workers, pending := [], received := [],
    sent := [], rqClosed := false }

/-- One step of the pipeline. Each constructor embeds one program
action with the ordering constraints program order imposes:
`send` is the `result <- res` at main.go:167, executed only by a live
worker; `workerExit` is a worker goroutine returning (wg.Done at
main.go:118); `closeRQ` is `close(partialResults)` at main.go:107,
which program order places after `workersWG.Wait()` at main.go:106,
hence its guard `activeWorkers = 0`; `recv` is a reducer receiving from
the channel at main.go:189. -/
inductive PStep : PipelineState → PipelineState → Prop
  | send (s : PipelineState) (w : WordCount) (h : 0 < s.activeWorkers) :
      PStep s { s with pending := w :: s.pending, sent := w :: s.sent }
  | workerExit (s : PipelineState) (h : 0 < s.activeWorkers) :
      PStep s { s with activeWorkers := s.activeWorkers - 1 }
  | closeRQ (s : PipelineState) (h : s.activeWorkers = 0) :
      PStep s { s with rqClosed := true }
  | recv (s : PipelineState) (w : WordCount) (l₁ l₂ : List WordCount)
      (h : s.pending = l₁ ++ w :: l₂) :
      PStep s { s with pending := l₁ ++ l₂,
                       received := w :: s.received }

/-- Reachability by a finite sequence of pipeline steps. -/
inductive Reaches : PipelineState → PipelineState → Prop
  | refl (s : PipelineState) : Reaches s s
  | tail {s t u : PipelineState} : Reaches s t → PStep t u → Reaches s u

/-! ## Basic lemmas about the association-list count maps -/

theorem keyTotal_nil (w : String) : keyTotal [] w = 0 := rfl

theorem keyTotal_cons (k : String) (v : Nat) (rest : WordCount) (w : String) :
    keyTotal ((k, v) :: rest) w = (if k = w then v else 0) + keyTotal rest w := by
  simp [keyTotal]

theorem lookup_bump (m : WordCount) (w w' : String) (n : Nat) :
    lookup (bump m w n) w' = lookup m w' + (if w' = w then n else 0) := by
  induction m with
  | nil =>
    simp only [bump, lookup]
    rcases eq_or_ne w' w with h | h
    · subst h; simp
    · simp [h, Ne.symm h]
  | cons p rest ih =>
    obtain ⟨k, v⟩ := p
    simp only [bump]
    rcases eq_or_ne k w with hk | hk
    · subst hk
      simp only [if_pos rfl, lookup]
      rcases eq_or_ne k w' with h | h
      · subst h; simp
      · simp [h, Ne.symm h]
    · simp only [if_neg hk, lookup]
      rcases eq_or_ne k w' with h | h
      · subst h; simp [hk]
      · simp [h, ih]

theorem keyTotal_bump (m : WordCount) (w w' : String) (n : Nat) :
    keyTotal (bump m w n) w' = keyTotal m w' + (if w' = w then n else 0) := by
  induction m with
  | nil =>
    simp only [bump, keyTotal_cons, keyTotal_nil]
    rcases eq_or_ne w' w with h | h
    · subst h; simp
    · simp [h, Ne.symm h]
  | cons p rest ih =>
    obtain ⟨k, v⟩ := p
    simp only [bump]
    rcases eq_or_ne k w with hk | hk
    · subst hk
      rw [if_pos rfl, keyTotal_cons, keyTotal_cons]
      rcases eq_or_ne k w' with h | h
      · subst h; simp; omega
      · simp [h, Ne.symm h]
    · rw [if_neg hk, keyTotal_cons, keyTotal_cons, ih]
      omega

theorem mem_keys_bump (m : WordCount) (w w' : String) (n : Nat) :
    w' ∈ keys (bump m w n) ↔ w' ∈ keys m ∨ w' = w := by
  induction m with
  | nil => simp [bump, keys]
  | cons p rest ih =>
    obtain ⟨k, v⟩ := p
    simp only [bump]
    rcases eq_or_ne k w with hk | hk
    · subst hk
      rw [if_pos rfl]
      simp only [keys, List.map_cons, List.mem_cons]
      tauto
    · rw [if_neg hk]
      simp only [keys, List.map_cons, List.mem_cons] at ih ⊢
      rw [ih]
      tauto

theorem pos_bump (m : WordCount) (w : String) (n : Nat)
    (hm : ∀ e ∈ m, 0 < e.2) (hn : 0 < n) :
    ∀ e ∈ bump m w n, 0 < e.2 := by
  induction m with
  | nil =>
    intro e he
    simp only [bump, List.mem_singleton] at he
    subst he; exact hn
  | cons p rest ih =>
    obtain ⟨k, v⟩ := p
    have hv : 0 < v := hm (k, v) (List.mem_cons_self _ _)
    have hrest : ∀ e ∈ rest, 0 < e.2 := fun e he => hm e (List.mem_cons_of_mem _ he)
    intro e he
    simp only [bump] at he
    rcases eq_or_ne k w with hk | hk
    · rw [if_pos hk] at he
      rcases List.mem_cons.mp he with h | h
      · subst h; simpa using Nat.lt_of_lt_of_le hv (Nat.le_add_right v n)
      · exact hrest e h
    · rw [if_neg hk] at he
      rcases List.mem_cons.mp he with h | h
      · subst h; exact hv
      · exact ih hrest e h

theorem mem_keys_iff_lookup_pos (m : WordCount) (w : String) :
    (∀ e ∈ m, 0 < e.2) → (w ∈ keys m ↔ 0 < lookup m w) := by
  induction m with
  | nil => intro _; simp [keys, lookup]
  | cons p rest ih =>
    intro hm
    obtain ⟨k, v⟩ := p
    have hv : 0 < v := hm (k, v) (List.mem_cons_self _ _)
    have hrest : ∀ e ∈ rest, 0 < e.2 := fun e he => hm e (List.mem_cons_of_mem _ he)
    simp only [keys, List.map_cons, List.mem_cons, lookup]
    rcases eq_or_ne k w with h | h
    · subst h; simp [hv]
    · simp only [if_neg h]
      have := ih hrest
      simp only [keys] at this
      rw [this]
      constructor
      · rintro (h2 | h2)
        · exact absurd h2.symm h
        · exact h2
      · intro h2; exact Or.inr h2

/-! ## Counting and merging lemmas -/

theorem countWords_cons (res : WordCount) (w : List Char) (ws : List (List Char)) :
    countWords res (w :: ws)
      = countWords (if lowerWord w ≠ "" then bump res (lowerWord w) 1 else res) ws := rfl

theorem tokensOfWords_cons (w : List Char) (ws : List (List Char)) :
    tokensOfWords (w :: ws)
      = if lowerWord w ≠ "" then lowerWord w :: tokensOfWords ws
        else tokensOfWords ws := by
  by_cases h : lowerWord w = ""
  · simp [tokensOfWords, h]
  · simp [tokensOfWords, h]

theorem keyTotal_countWords (ws : List (List Char)) (res : WordCount) (w : String) :
    keyTotal (countWords res ws) w = keyTotal res w + (tokensOfWords ws).count w := by
  induction ws generalizing res with
  | nil => simp [countWords, tokensOfWords]
  | cons t ts ih =>
    rw [countWords_cons, tokensOfWords_cons]
    by_cases h : lowerWord t = ""
    · simp only [h, ne_eq, not_true_eq_false, if_false]
      exact ih res
    · simp only [ne_eq, h, not_false_eq_true, if_true]
      rw [ih, keyTotal_bump]
      rcases eq_or_ne w (lowerWord t) with hw | hw
      · subst hw; simp [List.count_cons]; omega
      · simp [List.count_cons, hw, Ne.symm hw]

theorem pos_countWords (ws : List (List Char)) (res : WordCount)
    (hres : ∀ e ∈ res, 0 < e.2) :
    ∀ e ∈ countWords res ws, 0 < e.2 := by
  induction ws generalizing res with
  | nil => exact hres
  | cons t ts ih =>
    rw [countWords_cons]
    by_cases h : lowerWord t = ""
    · simp only [h, ne_eq, not_true_eq_false, if_false]
      exact ih res hres
    · simp only [ne_eq, h, not_false_eq_true, if_true]
      exact ih _ (pos_bump res (lowerWord t) 1 hres (by omega))

theorem keyTotal_countChunk (chunk : List Char) (res : WordCount) (w : String) :
    keyTotal (countChunk res chunk) w
      = keyTotal res w + (tokensOfChunk chunk).count w :=
  keyTotal_countWords (chunkWords chunk) res w

theorem keyTotal_foldl_countChunk (reads : List (List Char)) (res : WordCount)
    (w : String) :
    keyTotal (reads.foldl countChunk res) w
      = keyTotal res w + ((reads.map tokensOfChunk).flatten).count w := by
  induction reads generalizing res with
  | nil => simp
  | cons c cs ih =>
    simp only [List.foldl_cons, List.map_cons, List.flatten_cons, List.count_append]
    rw [ih, keyTotal_countChunk]
    omega

theorem pos_foldl_countChunk (reads : List (List Char)) (res : WordCount)
    (hres : ∀ e ∈ res, 0 < e.2) :
    ∀ e ∈ reads.foldl countChunk res, 0 < e.2 := by
  induction reads generalizing res with
  | nil => exact hres
  | cons c cs ih =>
    simp only [List.foldl_cons]
    exact ih _ (pos_countWords (chunkWords c) res hres)

theorem lookup_mergeInto (finRes res : WordCount) (w : String) :
    lookup (mergeInto finRes res) w = lookup finRes w + keyTotal res w := by
  induction res generalizing finRes with
  | nil => simp [mergeInto, keyTotal]
  | cons p rest ih =>
    obtain ⟨k, v⟩ := p
    have : mergeInto finRes ((k, v) :: rest) = mergeInto (bump finRes k v) rest := rfl
    rw [this, ih, lookup_bump, keyTotal_cons]
    rcases eq_or_ne w k with h | h
    · subst h; simp; omega
    · simp [h, Ne.symm h]

theorem mem_keys_mergeInto (finRes res : WordCount) (w : String) :
    w ∈ keys (mergeInto finRes res) ↔ w ∈ keys finRes ∨ w ∈ keys res := by
  induction res generalizing finRes with
  | nil => simp [mergeInto, keys]
  | cons p rest ih =>
    obtain ⟨k, v⟩ := p
    have : mergeInto finRes ((k, v) :: rest) = mergeInto (bump finRes k v) rest := rfl
    rw [this, ih, mem_keys_bump]
    simp only [keys, List.map_cons, List.mem_cons]
    tauto

theorem pos_mergeInto (finRes res : WordCount)
    (hfin : ∀ e ∈ finRes, 0 < e.2) (hres : ∀ e ∈ res, 0 < e.2) :
    ∀ e ∈ mergeInto finRes res, 0 < e.2 := by
  induction res generalizing finRes with
  | nil => exact hfin
  | cons p rest ih =>
    obtain ⟨k, v⟩ := p
    have hv : 0 < v := hres (k, v) (List.mem_cons_self _ _)
    have hrest : ∀ e ∈ rest, 0 < e.2 := fun e he => hres e (List.mem_cons_of_mem _ he)
    have : mergeInto finRes ((k, v) :: rest) = mergeInto (bump finRes k v) rest := rfl
    rw [this]
    exact ih (bump finRes k v) (pos_bump finRes k v hfin hv) hrest

theorem lookup_foldl_mergeInto (parts : List WordCount) (finRes : WordCount)
    (w : String) :
    lookup (parts.foldl mergeInto finRes) w
      = lookup finRes w + (parts.map (fun p => keyTotal p w)).sum := by
  induction parts generalizing finRes with
  | nil => simp
  | cons p rest ih =>
    simp only [List.foldl_cons, List.map_cons, List.sum_cons]
    rw [ih, lookup_mergeInto]
    omega

theorem lookup_mergeAll (parts : List WordCount) (w : String) :
    lookup (mergeAll parts) w = (parts.map (fun p => keyTotal p w)).sum := by
  rw [mergeAll, lookup_foldl_mergeInto]
  simp [lookup]

theorem mem_keys_mergeAll (parts : List WordCount) (w : String) :
    w ∈ keys (mergeAll parts) ↔ ∃ p ∈ parts, w ∈ keys p := by
  have main : ∀ (l : List WordCount) (finRes : WordCount),
      w ∈ keys (l.foldl mergeInto finRes)
        ↔ w ∈ keys finRes ∨ ∃ p ∈ l, w ∈ keys p := by
    intro l
    induction l with
    | nil => intro finRes; simp
    | cons p rest ih =>
      intro finRes
      simp only [List.foldl_cons]
      rw [ih, mem_keys_mergeInto]
      simp only [List.mem_cons]
      constructor
      · rintro ((h | h) | ⟨q, hq, hw⟩)
        · exact Or.inl h
        · exact Or.inr ⟨p, Or.inl rfl, h⟩
        · exact Or.inr ⟨q, Or.inr hq, hw⟩
      · rintro (h | ⟨q, (rfl | hq), hw⟩)
        · exact Or.inl (Or.inl h)
        · exact Or.inl (Or.inr hw)
        · exact Or.inr ⟨q, hq, hw⟩
  rw [mergeAll, main]
  simp [keys]

theorem pos_mergeAll (parts : List WordCount)
    (hp : ∀ p ∈ parts, ∀ e ∈ p, 0 < e.2) :
    ∀ e ∈ mergeAll parts, 0 < e.2 := by
  have main : ∀ (l : List WordCount) (finRes : WordCount),
      (∀ p ∈ l, ∀ e ∈ p, 0 < e.2) → (∀ e ∈ finRes, 0 < e.2) →
      ∀ e ∈ l.foldl mergeInto finRes, 0 < e.2 := by
    intro l
    induction l with
    | nil => intro finRes _ hfin; exact hfin
    | cons p rest ih =>
      intro finRes hl hfin
      simp only [List.foldl_cons]
      exact ih _ (fun q hq => hl q (List.mem_cons_of_mem _ hq))
        (pos_mergeInto finRes p hfin (hl p (List.mem_cons_self _ _)))
  exact main parts [] hp (by simp)

/-! ## Per-file and whole-run lemmas -/

theorem keyTotal_oneFile (reads : List (List Char)) (b : Bool) (w : String) :
    keyTotal (reads.foldl countChunk []) w = occCount w (.opened reads b) := by
  rw [keyTotal_foldl_countChunk]
  simp [occCount, fileTokens, keyTotal]

theorem conservation_lookup (files : List FileOutcome) (n : Nat) (w : String) :
    lookup (processFiles files n).finalResult w = (files.map (occCount w)).sum := by
  show lookup (mergeAll (files.filterMap processOneFile)) w = _
  rw [lookup_mergeAll]
  induction files with
  | nil => simp
  | cons f rest ih =>
    cases f with
    | openFail =>
      simpa [processOneFile, occCount, fileTokens] using ih
    | opened reads b =>
      simp only [List.filterMap_cons, processOneFile, List.map_cons, List.sum_cons]
      rw [keyTotal_oneFile reads b w, ih]

theorem pos_processOneFile (f : FileOutcome) (m : WordCount)
    (h : processOneFile f = some m) : ∀ e ∈ m, 0 < e.2 := by
  cases f with
  | openFail => simp [processOneFile] at h
  | opened reads b =>
    simp only [processOneFile, Option.some.injEq] at h
    subst h
    exact pos_foldl_countChunk reads [] (by simp)

theorem pos_finalResult (files : List FileOutcome) (n : Nat) :
    ∀ e ∈ (processFiles files n).finalResult, 0 < e.2 := by
  apply pos_mergeAll
  intro p hp
  rw [List.mem_filterMap] at hp
  obtain ⟨f, _, hf⟩ := hp
  exact pos_processOneFile f p hf

theorem mem_keys_finalResult (files : List FileOutcome) (n : Nat) (w : String) :
    w ∈ keys (processFiles files n).finalResult
      ↔ 0 < (files.map (occCount w)).sum := by
  rw [mem_keys_iff_lookup_pos _ w (pos_finalResult files n), conservation_lookup]

theorem filterMap_opensOK (files : List FileOutcome) :
    files.filterMap processOneFile
      = (files.filter opensOK).filterMap processOneFile := by
  induction files with
  | nil => rfl
  | cons f rest ih =>
    cases f with
    | openFail => simpa [processOneFile, opensOK, List.filter_cons] using ih
    | opened reads b => simp [processOneFile, opensOK, List.filter_cons, ih]

/-! ## Structure of the token splitter -/

theorem fieldsFuncAux_mem (p : Char → Bool) (s : List Char) :
    ∀ cur : List Char, (∀ c ∈ cur, p c = false) →
    ∀ t ∈ fieldsFuncAux p cur s, t ≠ [] ∧ ∀ c ∈ t, p c = false := by
  induction s with
  | nil =>
    intro cur hcur t ht
    simp only [fieldsFuncAux] at ht
    by_cases h : cur.isEmpty
    · simp [h] at ht
    · rw [if_neg h] at ht
      simp only [List.mem_singleton] at ht
      subst ht
      rw [List.isEmpty_iff] at h
      constructor
      · simpa [List.reverse_eq_nil_iff] using h
      · intro c hc; exact hcur c (List.mem_reverse.mp hc)
  | cons c cs ih =>
    intro cur hcur t ht
    simp only [fieldsFuncAux] at ht
    by_cases hpc : p c = true
    · rw [if_pos hpc] at ht
      by_cases h : cur.isEmpty
      · rw [if_pos h] at ht
        exact ih [] (by simp) t ht
      · rw [if_neg h] at ht
        rcases List.mem_cons.mp ht with h1 | h1
        · subst h1
          rw [List.isEmpty_iff] at h
          constructor
          · simpa [List.reverse_eq_nil_iff] using h
          · intro d hd; exact hcur d (List.mem_reverse.mp hd)
        · exact ih [] (by simp) t h1
    · rw [if_neg hpc] at ht
      refine ih (c :: cur) ?_ t ht
      intro d hd
      rcases List.mem_cons.mp hd with h1 | h1
      · subst h1; simpa using hpc
      · exact hcur d h1

theorem fieldsFuncAux_flatten (p : Char → Bool) (s : List Char) :
    ∀ cur : List Char,
    (fieldsFuncAux p cur s).flatten = cur.reverse ++ s.filter (fun c => !p c) := by
  induction s with
  | nil =>
    intro cur
    simp only [fieldsFuncAux, List.filter_nil, List.append_nil]
    by_cases h : cur.isEmpty
    · rw [if_pos h, List.isEmpty_iff.mp h]
      simp
    · rw [if_neg h]
      simp
  | cons c cs ih =>
    intro cur
    simp only [fieldsFuncAux]
    by_cases hpc : p c = true
    · have hf : (c :: cs).filter (fun d => !p d) = cs.filter (fun d => !p d) := by
        simp [List.filter_cons, hpc]
      rw [if_pos hpc, hf]
      by_cases h : cur.isEmpty
      · rw [if_pos h, ih [], List.isEmpty_iff.mp h]
      · rw [if_neg h]
        simp only [List.flatten_cons, ih []]
        simp
    · have hf : (c :: cs).filter (fun d => !p d) = c :: cs.filter (fun d => !p d) := by
        simp [List.filter_cons, hpc]
      rw [if_neg hpc, hf, ih (c :: cur)]
      simp

theorem fieldsFuncAux_no_sep (p : Char → Bool) (s : List Char) :
    (∀ c ∈ s, p c = false) → ∀ cur : List Char,
    fieldsFuncAux p cur s
      = if (cur.reverse ++ s).isEmpty then [] else [cur.reverse ++ s] := by
  induction s with
  | nil =>
    intro _ cur
    simp only [fieldsFuncAux, List.append_nil]
    by_cases h : cur = []
    · rw [if_pos (by simp [h]), if_pos (by simp [h])]
    · rw [if_neg (by simpa [List.isEmpty_iff] using h),
        if_neg (by simpa [List.isEmpty_iff, List.reverse_eq_nil_iff] using h)]
  | cons c cs ih =>
    intro hs cur
    have hpc : p c = false := hs c (List.mem_cons_self _ _)
    simp only [fieldsFuncAux]
    rw [if_neg (by simp [hpc])]
    rw [ih (fun d hd => hs d (List.mem_cons_of_mem _ hd)) (c :: cur)]
    have harr : (c :: cur).reverse ++ cs = cur.reverse ++ c :: cs := by
      simp
    rw [harr]

theorem chunkWords_flatten (chunk : List Char) :
    (chunkWords chunk).flatten = chunk.filter isLetterGo := by
  rw [chunkWords, fieldsFunc, fieldsFuncAux_flatten]
  simp [sepRune]

theorem chunkWords_all_letters (s : List Char) (hne : s ≠ [])
    (hs : ∀ c ∈ s, isLetterGo c = true) :
    chunkWords s = [s] := by
  rw [chunkWords, fieldsFunc,
    fieldsFuncAux_no_sep sepRune s (fun c hc => by simp [sepRune, hs c hc]) []]
  simp [List.isEmpty_iff, hne]

theorem mem_chunkWords (chunk : List Char) (t : List Char)
    (ht : t ∈ chunkWords chunk) :
    t ≠ [] ∧ ∀ c ∈ t, isLetterGo c = true := by
  have h := fieldsFuncAux_mem sepRune chunk [] (by simp) t ht
  refine ⟨h.1, fun c hc => ?_⟩
  have h2 := h.2 c hc
  simpa [sepRune] using h2

theorem lowerWord_ne_empty (t : List Char) (ht : t ≠ []) : lowerWord t ≠ "" := by
  rw [lowerWord]
  intro h
  have h2 : t.map Char.toLower = [] := by
    have h3 := congrArg String.data h
    simpa using h3
  simp only [List.map_eq_nil_iff] at h2
  exact ht h2

theorem tokensOfChunk_eq_map (chunk : List Char) :
    tokensOfChunk chunk = (chunkWords chunk).map lowerWord := by
  rw [tokensOfChunk, tokensOfWords]
  apply List.filter_eq_self.mpr
  intro a ha
  rw [List.mem_map] at ha
  obtain ⟨t, ht, rfl⟩ := ha
  simpa using lowerWord_ne_empty t (mem_chunkWords chunk t ht).1

theorem isLetterGo_not_digit (c : Char) (h : isLetterGo c = true) :
    c.isDigit = false := by
  rw [isLetterGo, Char.isAlpha, Char.isUpper, Char.isLower] at h
  rw [Char.isDigit]
  simp only [Bool.or_eq_true, Bool.and_eq_true, decide_eq_true_eq] at h
  simp only [Bool.and_eq_false_iff, decide_eq_false_iff_not]
  right
  intro hle
  have h4 := UInt32.toNat_le_of_le (by decide) hle
  rcases h with ⟨h1, _⟩ | ⟨h1, _⟩
  · exact absurd (le_trans (UInt32.le_toNat_of_le (by decide) h1) h4) (by decide)
  · exact absurd (le_trans (UInt32.le_toNat_of_le (by decide) h1) h4) (by decide)

/-! ## Worker control flow under panics -/

theorem workerRun_stops_at_fault (pre post : List WorkItem)
    (hpre : ∀ i ∈ pre, i ≠ WorkItem.faulting) :
    workerRun (pre ++ WorkItem.faulting :: post) = ((workerRun pre).1, true) := by
  induction pre with
  | nil => simp [workerRun]
  | cons i rest ih =>
    have hi : i ≠ WorkItem.faulting := hpre i (List.mem_cons_self _ _)
    have hrest : ∀ j ∈ rest, j ≠ WorkItem.faulting :=
      fun j hj => hpre j (List.mem_cons_of_mem _ hj)
    cases i with
    | faulting => exact absurd rfl hi
    | good f =>
      simp only [List.cons_append, workerRun, List.append_eq]
      rw [ih hrest]
      cases f with
      | openFail => simp [processOneFile]
      | opened reads b => simp [processOneFile]

/-! ## Invariants of the shutdown protocol -/

theorem reaches_invariant (n : Nat) (s : PipelineState)
    (h : Reaches (initState n) s) :
    (s.rqClosed = true → s.activeWorkers = 0)
    ∧ s.sent.Perm (s.pending ++ s.received) := by
  induction h with
  | refl => exact ⟨fun h => by simp [initState] at h, by simp [initState]⟩
  | @tail t u hreach hstep ih =>
    cases hstep with
    | send w hw =>
      exact ⟨fun hc => ih.1 hc, ih.2.cons w⟩
    | workerExit hw =>
      refine ⟨fun hc => ?_, ih.2⟩
      rw [ih.1 hc]
    | closeRQ hw =>
      exact ⟨fun _ => hw, ih.2⟩
    | recv w l₁ l₂ hp =>
      refine ⟨fun hc => ih.1 hc, ?_⟩
      dsimp only
      refine ih.2.trans ?_
      rw [hp]
      refine ((@List.perm_middle _ w l₁ l₂).append_right _).trans ?_
      simp only [List.cons_append]
      exact (@List.perm_middle _ w (l₁ ++ l₂) t.received).symm

/-! ## Auxiliary facts shared by the claim theorems -/

theorem sum_occCount_filter (files : List FileOutcome) (w : String) :
    (files.map (occCount w)).sum = ((files.filter opensOK).map (occCount w)).sum := by
  induction files with
  | nil => rfl
  | cons f rest ih =>
    cases f with
    | openFail =>
      simpa [List.filter_cons, opensOK, occCount, fileTokens] using ih
    | opened reads b => simp [List.filter_cons, opensOK, ih]

/-! ## The claims -/

set_option linter.unusedVariables false in
/-- C1: Conservation — for every non-empty list of files that all open
and read without error and every worker count ≥ 1, `processFiles` maps
every word to the sum over the files of its occurrence count in that
file's token stream, has no other keys, and on a single file containing
"apple orange! banana? apple." with pool size 1 it returns exactly
apple ↦ 2, orange ↦ 1, banana ↦ 1 and no error. -/
theorem C1_conservation (files : List FileOutcome) (n : Nat)
    (hn : 1 ≤ n) (hne : files ≠ [])
    (hok : ∀ f ∈ files, ∃ reads, f = FileOutcome.opened reads false) :
    (∀ w, lookup (processFiles files n).finalResult w
        = (files.map (occCount w)).sum)
    ∧ (∀ w, w ∈ keys (processFiles files n).finalResult
        ↔ 0 < (files.map (occCount w)).sum)
    ∧ processFiles
        [FileOutcome.opened ["apple orange! banana? apple.".toList] false] 1
      = { finalResult := [("apple", 2), ("orange", 1), ("banana", 1)],
          error := none } :=
  ⟨fun w => conservation_lookup files n w,
   fun w => mem_keys_finalResult files n w, rfl⟩

theorem C1_conservation_witness :
    lookup (processFiles [FileOutcome.opened ["a b a".toList] false] 1).finalResult "a"
      = ([FileOutcome.opened ["a b a".toList] false].map (occCount "a")).sum :=
  (C1_conservation [FileOutcome.opened ["a b a".toList] false] 1
    (by decide) (by simp)
    (fun f hf => ⟨["a b a".toList], List.mem_singleton.mp hf⟩)).1 "a"

/-- C2: Tokenizer normalization — the tokens of every chunk are exactly
its maximal letter runs lower-cased (the runs are non-empty, contain
only letters, and their concatenation is the letter subsequence of the
chunk); no empty token is produced; a letter is never a digit, so no
token contains one; and the specification's two examples evaluate as
stated. -/
theorem C2_tokenizer_normalization :
    (∀ chunk : List Char,
        tokensOfChunk chunk = (chunkWords chunk).map lowerWord
        ∧ (chunkWords chunk).flatten = chunk.filter isLetterGo
        ∧ ∀ r ∈ chunkWords chunk, r ≠ [] ∧ ∀ c ∈ r, isLetterGo c = true)
    ∧ (∀ chunk : List Char, ∀ t ∈ tokensOfChunk chunk, t ≠ "")
    ∧ (∀ c : Char, isLetterGo c = true → c.isDigit = false)
    ∧ countChunk [] "Apple APPLE aPpLe".toList = [("apple", 3)]
    ∧ tokensOfChunk "co-op, co2 visits: co-op!".toList
        = ["co", "op", "co", "visits", "co", "op"] := by
  refine ⟨fun chunk => ⟨tokensOfChunk_eq_map chunk, chunkWords_flatten chunk,
      fun r hr => mem_chunkWords chunk r hr⟩, ?_, isLetterGo_not_digit, rfl, rfl⟩
  intro chunk t ht
  rw [tokensOfChunk, tokensOfWords] at ht
  simpa using List.of_mem_filter ht

theorem C2_tokenizer_normalization_witness :
    ("co" : String) ≠ "" ∧ Char.isDigit 'x' = false :=
  ⟨C2_tokenizer_normalization.2.1 "co-op, co2 visits: co-op!".toList "co"
      (by decide),
   C2_tokenizer_normalization.2.2.1 'x' (by decide)⟩

/-- C3: Chunk-local splitting — the read buffer is 1 MiB; splitting is
applied independently per chunk yet the letter runs of all chunks
together cover the whole stream; and a single all-letter run split
across two chunk reads is tokenized as two separate words, while the
same bytes in one chunk give a single word. -/
theorem C3_chunk_local_splitting :
    chunkSize = 1024 * 1024
    ∧ (∀ chunks : List (List Char),
        ((chunks.map chunkWords).flatten).flatten
          = chunks.flatten.filter isLetterGo)
    ∧ (∀ s₁ s₂ : List Char, s₁ ≠ [] → s₂ ≠ [] →
        (∀ c ∈ s₁ ++ s₂, isLetterGo c = true) →
        fileTokens (.opened [s₁, s₂] false) = [lowerWord s₁, lowerWord s₂]
        ∧ fileTokens (.opened [s₁ ++ s₂] false) = [lowerWord (s₁ ++ s₂)]) := by
  refine ⟨rfl, ?_, ?_⟩
  · intro chunks
    induction chunks with
    | nil => rfl
    | cons c cs ih =>
      simp only [List.map_cons, List.flatten_cons, List.filter_append,
        List.flatten_append, chunkWords_flatten, ih]
  · intro s₁ s₂ h₁ h₂ hall
    have ha₁ : ∀ c ∈ s₁, isLetterGo c = true :=
      fun c hc => hall c (List.mem_append_left _ hc)
    have ha₂ : ∀ c ∈ s₂, isLetterGo c = true :=
      fun c hc => hall c (List.mem_append_right _ hc)
    constructor
    · simp [fileTokens, tokensOfChunk_eq_map,
        chunkWords_all_letters s₁ h₁ ha₁, chunkWords_all_letters s₂ h₂ ha₂]
    · have hne : s₁ ++ s₂ ≠ [] := by simp [h₁]
      simp [fileTokens, tokensOfChunk_eq_map,
        chunkWords_all_letters (s₁ ++ s₂) hne hall]

theorem C3_chunk_local_splitting_witness :
    fileTokens (.opened ["ab".toList, "cd".toList] false) = ["ab", "cd"]
    ∧ fileTokens (.opened ["ab".toList ++ "cd".toList] false) = ["abcd"] := by
  have h := C3_chunk_local_splitting.2.2 "ab".toList "cd".toList
    (by decide) (by decide) (by decide)
  exact ⟨h.1.trans (by decide), h.2.trans (by decide)⟩

/-- C4 counterexample: the claim says `processFiles` returns a non-nil
configuration error on an empty file list; in fact it returns a nil
error (and an empty map) — the function performs no validation. -/
theorem C4_counterexample :
    (processFiles [] 1).error = none ∧ (processFiles [] 1).finalResult = [] :=
  ⟨rfl, rfl⟩

/-- C4 amended: `processFiles` performs no configuration validation and
always returns a nil error (its body ends in `return finalResult, nil`);
an empty input yields an empty final map with a nil error; the
empty-input rejection is performed by `main` (main.go:61-64), which logs
an error and never invokes the pipeline when no file arguments are
given. -/
theorem C4_no_config_error (files : List FileOutcome) (n : Nat) :
    (processFiles files n).error = none
    ∧ (processFiles [] n).finalResult = []
    ∧ mainRuns [] = false :=
  ⟨rfl, rfl, rfl⟩

set_option linter.unusedVariables false in
/-- C5: File-open failure isolation — with a failing identifier among
successfully opening ones, the failing file emits no result and
contributes nothing, `processFiles` returns a nil error, and its final
map equals the one computed from the successfully opening files alone,
word by word. -/
theorem C5_open_failure_isolation (files : List FileOutcome) (n : Nat)
    (hbad : FileOutcome.openFail ∈ files)
    (hgood : ∃ f ∈ files, opensOK f = true) :
    (processFiles files n).error = none
    ∧ processOneFile FileOutcome.openFail = none
    ∧ (processFiles files n).finalResult
        = (processFiles (files.filter opensOK) n).finalResult
    ∧ (∀ w, lookup (processFiles files n).finalResult w
        = ((files.filter opensOK).map (occCount w)).sum) := by
  refine ⟨rfl, rfl, ?_, fun w => ?_⟩
  · show mergeAll (files.filterMap processOneFile) = _
    rw [filterMap_opensOK]
    rfl
  · rw [conservation_lookup, sum_occCount_filter]

theorem C5_open_failure_isolation_witness :
    (processFiles [FileOutcome.openFail,
        FileOutcome.opened ["ab".toList] false] 1).finalResult
      = (processFiles [FileOutcome.opened ["ab".toList] false] 1).finalResult :=
  (C5_open_failure_isolation
    [FileOutcome.openFail, FileOutcome.opened ["ab".toList] false] 1
    (by decide)
    ⟨FileOutcome.opened ["ab".toList] false, by decide, rfl⟩).2.2.1

/-- C6: Mid-read error truncation — a file whose read loop ends in a
non-EOF error still emits the partial count accumulated from the chunks
read before the failure (the emission is identical to the error-free
case over the same chunks), and when such a file is in the input its
truncated tally is merged into the final result (its occurrence count
is a lower bound on the final count of each word). -/
theorem C6_mid_read_truncation (reads : List (List Char))
    (files : List FileOutcome) (n : Nat)
    (hmem : FileOutcome.opened reads true ∈ files) :
    processOneFile (FileOutcome.opened reads true)
        = some (reads.foldl countChunk [])
    ∧ processOneFile (FileOutcome.opened reads true)
        = processOneFile (FileOutcome.opened reads false)
    ∧ (∀ w, occCount w (FileOutcome.opened reads true)
        ≤ lookup (processFiles files n).finalResult w) := by
  refine ⟨rfl, rfl, fun w => ?_⟩
  rw [conservation_lookup]
  exact List.single_le_sum (fun x _ => Nat.zero_le x) _
    (List.mem_map_of_mem (occCount w) hmem)

theorem C6_mid_read_truncation_witness :
    occCount "ab" (FileOutcome.opened ["ab".toList] true)
      ≤ lookup (processFiles [FileOutcome.opened ["ab".toList] true] 1).finalResult
          "ab" :=
  (C6_mid_read_truncation ["ab".toList]
    [FileOutcome.opened ["ab".toList] true] 1 (by decide)).2.2 "ab"

/-- C7 counterexample: the claim says a worker that recovers from a
panic continues with the next Work Queue item; in fact the `recover`
sits at the goroutine boundary (outside the range loop), so after a
faulting item the worker emits nothing further — here the good file
after the fault is not processed, although alone it would have produced
a result. -/
theorem C7_counterexample :
    workerRun [WorkItem.faulting,
        WorkItem.good (FileOutcome.opened ["ab".toList] false)] = ([], true)
    ∧ workerRun [WorkItem.good (FileOutcome.opened ["ab".toList] false)]
        = ([[("ab", 1)]], false) :=
  ⟨rfl, rfl⟩

/-- C7 amended: an unexpected runtime fault while a worker processes one
file is caught by the `recover` deferred at the goroutine boundary and
logged, so it never tears down the process and the WaitGroup join still
completes; but the worker exits after the fault instead of continuing:
it emits exactly the results of the items before the first faulting
item, and items after it are not processed by that worker. -/
theorem C7_goroutine_level_recovery (pre post : List WorkItem)
    (hpre : ∀ i ∈ pre, i ≠ WorkItem.faulting) :
    workerRun (pre ++ WorkItem.faulting :: post) = ((workerRun pre).1, true) :=
  workerRun_stops_at_fault pre post hpre

theorem C7_goroutine_level_recovery_witness :
    workerRun [WorkItem.good (FileOutcome.opened ["a".toList] false),
        WorkItem.faulting] = ([[("a", 1)]], true) :=
  (C7_goroutine_level_recovery
    [WorkItem.good (FileOutcome.opened ["a".toList] false)] []
    (by decide)).trans (by decide)

set_option linter.unusedVariables false in
/-- C8: Pool-size invariance — the result of `processFiles` does not
depend on the pool size, and merging any permutation of the partial
counts yields the same final map (same counts for every word and the
same key set), because the per-key merge is addition of counts. -/
theorem C8_pool_size_invariance (files : List FileOutcome) (n₁ n₂ : Nat)
    (h₁ : 1 ≤ n₁) (h₂ : 1 ≤ n₂) :
    processFiles files n₁ = processFiles files n₂
    ∧ (∀ parts parts' : List WordCount, parts.Perm parts' →
        (∀ w, lookup (mergeAll parts) w = lookup (mergeAll parts') w)
        ∧ (∀ w, w ∈ keys (mergeAll parts) ↔ w ∈ keys (mergeAll parts'))) := by
  refine ⟨rfl, fun parts parts' hp => ⟨fun w => ?_, fun w => ?_⟩⟩
  · rw [lookup_mergeAll, lookup_mergeAll]
    exact List.Perm.sum_eq (hp.map _)
  · rw [mem_keys_mergeAll, mem_keys_mergeAll]
    constructor
    · rintro ⟨p, hp2, hw⟩; exact ⟨p, hp.mem_iff.mp hp2, hw⟩
    · rintro ⟨p, hp2, hw⟩; exact ⟨p, hp.mem_iff.mpr hp2, hw⟩

theorem C8_pool_size_invariance_witness :
    processFiles [FileOutcome.opened ["a b".toList] false] 1
      = processFiles [FileOutcome.opened ["a b".toList] false] 2
    ∧ lookup (mergeAll [[("a", 1)], [("a", 2), ("b", 1)]]) "a"
      = lookup (mergeAll [[("a", 2), ("b", 1)], [("a", 1)]]) "a" := by
  have h := C8_pool_size_invariance [FileOutcome.opened ["a b".toList] false]
    1 2 (by decide) (by decide)
  exact ⟨h.1,
    (h.2 [[("a", 1)], [("a", 2), ("b", 1)]] [[("a", 2), ("b", 1)], [("a", 1)]]
      (by decide)).1 "a"⟩

/-- C9: Two-phase join — in every state reachable by the pipeline's
step relation, the Result Queue is closed only after every worker has
exited; the partial counts sent equal (as a multiset) those pending
plus those received; hence in any final state (queue closed and
drained, the condition under which reducers exit) every partial count a
worker sent has been received by a reducer — none is dropped. -/
theorem C9_two_phase_join (n : Nat) (s : PipelineState)
    (h : Reaches (initState n) s) :
    (s.rqClosed = true → s.activeWorkers = 0)
    ∧ s.sent.Perm (s.pending ++ s.received)
    ∧ (s.rqClosed = true → s.pending = [] → s.received.Perm s.sent) := by
  obtain ⟨h1, h2⟩ := reaches_invariant n s h
  refine ⟨h1, h2, fun _ hp => ?_⟩
  rw [hp] at h2
  simpa using h2.symm

theorem C9_two_phase_join_witness :
    List.Perm
      ({ activeWorkers := 0, pending := [], received := [[("a", 1)]],
         sent := [[("a", 1)]], rqClosed := true } : PipelineState).received
      [[("a", 1)]] := by
  have r1 := Reaches.tail (Reaches.refl (initState 1))
    (PStep.send (initState 1) [("a", 1)] (by decide))
  have r2 := Reaches.tail r1 (PStep.workerExit
    { activeWorkers := 1, pending := [[("a", 1)]], received := [],
      sent := [[("a", 1)]], rqClosed := false } (by decide))
  have r3 := Reaches.tail r2 (PStep.closeRQ
    { activeWorkers := 0, pending := [[("a", 1)]], received := [],
      sent := [[("a", 1)]], rqClosed := false } rfl)
  have r4 := Reaches.tail r3 (PStep.recv
    { activeWorkers := 0, pending := [[("a", 1)]], received := [],
      sent := [[("a", 1)]], rqClosed := true } [("a", 1)] [] [] rfl)
  exact (C9_two_phase_join 1 _ r4).2.2 rfl rfl

/-- C10: Positive-count invariant — every key of the final map carries a
strictly positive count, and a word is a key exactly when its final
count is positive, so a word occurring in no processed file is absent
rather than mapped to 0. -/
theorem C10_positive_counts (files : List FileOutcome) (n : Nat) :
    (∀ e ∈ (processFiles files n).finalResult, 0 < e.2)
    ∧ (∀ w, w ∈ keys (processFiles files n).finalResult
        ↔ 0 < lookup (processFiles files n).finalResult w) :=
  ⟨pos_finalResult files n,
   fun w => mem_keys_iff_lookup_pos _ w (pos_finalResult files n)⟩

theorem C10_positive_counts_witness :
    0 < lookup (processFiles [FileOutcome.opened ["a".toList] false] 1).finalResult
        "a" :=
  ((C10_positive_counts [FileOutcome.opened ["a".toList] false] 1).2 "a").mp
    (by decide)

end MapReduceWC
